import Mathlib

set_option maxHeartbeats 1000000

/- Verification of the ASDL definition-file processor in src/asdl.py:
its tokenizer (tokenize_asdl), recursive descent parser (ASDLParser) and
semantic checker (Check / check), embedded shallowly below.  Machine
strings are Lean Strings, line numbers are Nat, fallible operations
return Except. -/

namespace ASDL

/-- Kinds of tokens in an ASDL specification (class TokenKind). -/
inductive TokenKind where
  | ConstructorId
  | TypeId
  | Equals
  | Comma
  | Question
  | Pipe
  | Asterisk
  | LParen
  | RParen
  | LBrace
  | RBrace
  deriving DecidableEq, Repr

/-- TokenKind.operator_table, read as a plain lookup table from single
operator characters (as one-character strings) to token kinds.  The
tokenizer also feeds whole non-identifier words to this lookup, which
then always misses. -/
def operator_table (s : String) : Option TokenKind :=
  if s = "=" then some TokenKind.Equals
  else if s = "," then some TokenKind.Comma
  else if s = "?" then some TokenKind.Question
  else if s = "|" then some TokenKind.Pipe
  else if s = "(" then some TokenKind.LParen
  else if s = ")" then some TokenKind.RParen
  else if s = "*" then some TokenKind.Asterisk
  else if s = "\x7b" then some TokenKind.LBrace
  else if s = "\x7d" then some TokenKind.RBrace
  else none

/-- Token produced by the tokenizer (NamedTuple Token: kind, value, lineno). -/
structure Tok where
  kind : TokenKind
  value : String
  lineno : Nat
  deriving DecidableEq, Repr

/-- Failures of tokenizer and parser.  ASDLSyntaxError messages are
modelled structurally: invalidOperator is the tokenizer's
"Invalid operator" error, expectedModule and unmatched are the parser's
two syntax errors; each carries the 1-based line number.  pyNone marks
the places where the source would dereference cur_token while it is
None, fuelOut is the unreachable exhaustion of loop fuel. -/
inductive PErr where
  | invalidOperator (op : String) (lineno : Nat)
  | expectedModule (found : String) (lineno : Nat)
  | unmatched (expected : List TokenKind) (found : TokenKind) (lineno : Nat)
  | pyNone
  | fuelOut
  deriving DecidableEq, Repr

/-- Word characters of the tokenizer's regular expression (backslash-w). -/
def wordChar (c : Char) : Bool := c.isAlphanum || c = '_'

/-- One line of tokenization: the loop body of tokenize_asdl over the
regular-expression matches of one line.  An alphanumeric word starting
with an uppercase letter becomes a ConstructorId token, with another
letter a TypeId token; two dashes end the line (comment); any other
character is looked up in operator_table.  The fuel argument makes the
recursion structural; every step consumes at least one character, so
fuel = length of the line never runs out. -/
def scanLineF : Nat → Nat → List Char → Except PErr (List Tok)
  | _, _, [] => Except.ok []
  | 0, _, _ :: _ => Except.error PErr.fuelOut
  | fuel + 1, n, c :: cs =>
    if c.isWhitespace then scanLineF fuel n cs
    else if wordChar c then
      if c.isAlpha then
        if c.isUpper then
          (scanLineF fuel n (cs.dropWhile wordChar)).map
            (fun ts => Tok.mk TokenKind.ConstructorId (String.mk (c :: cs.takeWhile wordChar)) n :: ts)
        else
          (scanLineF fuel n (cs.dropWhile wordChar)).map
            (fun ts => Tok.mk TokenKind.TypeId (String.mk (c :: cs.takeWhile wordChar)) n :: ts)
      else
        match operator_table (String.mk (c :: cs.takeWhile wordChar)) with
        | some k =>
          (scanLineF fuel n (cs.dropWhile wordChar)).map
            (fun ts => Tok.mk k (String.mk (c :: cs.takeWhile wordChar)) n :: ts)
        | none => Except.error (PErr.invalidOperator (String.mk (c :: cs.takeWhile wordChar)) n)
    else if c = '-' ∧ cs.head? = some '-' then Except.ok []
    else
      match operator_table (String.singleton c) with
      | some k => (scanLineF fuel n cs).map (fun ts => Tok.mk k (String.singleton c) n :: ts)
      | none => Except.error (PErr.invalidOperator (String.singleton c) n)

/-- Tokenize one line given its 1-based line number. -/
def scanLine (n : Nat) (l : List Char) : Except PErr (List Tok) :=
  scanLineF l.length n l

/-- Field: a referenced type name, an optional binding name, and the two
independent quantifier flags (class Field). -/
structure Field where
  type : String
  name : Option String
  seq : Bool
  opt : Bool
  deriving DecidableEq, Repr

/-- Constructor: a name plus its fields (class Constructor; a missing
fields list is stored as the empty list, as `fields or []` does). -/
structure Constructor where
  name : String
  fields : List Field
  deriving DecidableEq, Repr

/-- The value of a type definition: either a Sum (class Sum: constructors
plus attributes) or a Product (class Product: fields plus attributes).
A missing attributes list is stored as the empty list. -/
inductive TyValue where
  | sum (types : List Constructor) (attributes : List Field)
  | product (fields : List Field) (attributes : List Field)
  deriving DecidableEq, Repr

/-- One type definition (class Type: a name and a Sum or Product value). -/
structure TypeDef where
  name : String
  value : TyValue
  deriving DecidableEq, Repr

/-- Module: a name and the ordered definitions (class Module).  The
name-to-value dictionary the constructor derives is modelled by
Module.typesDict below. -/
structure Module where
  name : String
  dfns : List TypeDef
  deriving DecidableEq, Repr

/-- The _match primitive for a single expected kind. -/
def pmatch (k : TokenKind) : List Tok → Except PErr (String × List Tok)
  | [] => Except.error PErr.pyNone
  | t :: ts =>
    if t.kind = k then Except.ok (t.value, ts)
    else Except.error (PErr.unmatched [k] t.kind t.lineno)

/-- The _match primitive for the _id_kinds pair
(ConstructorId, TypeId). -/
def pmatchIds : List Tok → Except PErr (String × List Tok)
  | [] => Except.error PErr.pyNone
  | t :: ts =>
    if t.kind = TokenKind.ConstructorId ∨ t.kind = TokenKind.TypeId then Except.ok (t.value, ts)
    else Except.error (PErr.unmatched [TokenKind.ConstructorId, TokenKind.TypeId] t.kind t.lineno)

/-- _parse_optional_field_quantifier: an optional-marker check followed
by an independent sequence-marker check; returns (is_seq, is_opt). -/
def parseQuant : List Tok → Except PErr ((Bool × Bool) × List Tok)
  | [] => Except.error PErr.pyNone
  | t :: ts =>
    if t.kind = TokenKind.Question then
      match ts with
      | [] => Except.error PErr.pyNone
      | u :: us =>
        if u.kind = TokenKind.Asterisk then Except.ok ((true, true), us)
        else Except.ok ((false, true), u :: us)
    else if t.kind = TokenKind.Asterisk then Except.ok ((true, false), ts)
    else Except.ok ((false, false), t :: ts)

/-- The while loop of _parse_fields: while the current token is a TypeId,
read a field (type name, quantifiers, optional binding name), then break
on a closing parenthesis or consume one comma.  Exits returning the
fields collected and the remaining tokens (the closing parenthesis is
left for the caller's match). -/
def parseFieldsLoop : Nat → List Field → List Tok → Except PErr (List Field × List Tok)
  | _, _, [] => Except.error PErr.pyNone
  | fuel, acc, t :: ts =>
    if t.kind = TokenKind.TypeId then
      match fuel with
      | 0 => Except.error PErr.fuelOut
      | fuel' + 1 =>
        match parseQuant ts with
        | Except.error e => Except.error e
        | Except.ok (q, ts1) =>
          match ts1 with
          | [] => Except.error PErr.pyNone
          | u :: us =>
            let nmts : Option String × List Tok :=
              if u.kind = TokenKind.ConstructorId ∨ u.kind = TokenKind.TypeId
              then (some u.value, us) else (none, u :: us)
            let acc' := acc ++ [Field.mk t.value nmts.1 q.1 q.2]
            match nmts.2 with
            | [] => Except.error PErr.pyNone
            | w :: ws =>
              if w.kind = TokenKind.RParen then Except.ok (acc', w :: ws)
              else if w.kind = TokenKind.Comma then parseFieldsLoop fuel' acc' ws
              else parseFieldsLoop fuel' acc' (w :: ws)
    else Except.ok (acc, t :: ts)

/-- _parse_fields: opening parenthesis, the field loop, closing
parenthesis. -/
def parse_fields (ts : List Tok) : Except PErr (List Field × List Tok) :=
  match pmatch TokenKind.LParen ts with
  | Except.error e => Except.error e
  | Except.ok (_, ts1) =>
    match parseFieldsLoop (ts1.length + 1) [] ts1 with
    | Except.error e => Except.error e
    | Except.ok (fs, ts2) =>
      match pmatch TokenKind.RParen ts2 with
      | Except.error e => Except.error e
      | Except.ok (_, ts3) => Except.ok (fs, ts3)

/-- _parse_optional_fields: fields exactly when the current token is an
opening parenthesis (a missing list is the empty list, as stored by
Constructor). -/
def parseOptionalFields (ts : List Tok) : Except PErr (List Field × List Tok) :=
  match ts with
  | [] => Except.error PErr.pyNone
  | t :: ts' =>
    if t.kind = TokenKind.LParen then parse_fields (t :: ts')
    else Except.ok ([], t :: ts')

/-- _parse_optional_attributes: when _at_keyword("attributes") holds
(current token is a TypeId whose value is "attributes"), consume it and
parse a fields list; a missing clause is the empty list. -/
def parseOptionalAttributes (ts : List Tok) : Except PErr (List Field × List Tok) :=
  match ts with
  | [] => Except.error PErr.pyNone
  | t :: ts' =>
    if t.kind = TokenKind.TypeId ∧ t.value = "attributes" then parse_fields ts'
    else Except.ok ([], t :: ts')

/-- One constructor: Constructor(_match(ConstructorId),
_parse_optional_fields()), as built at both places of _parse_type. -/
def parseConstructor (ts : List Tok) : Except PErr (Constructor × List Tok) :=
  match pmatch TokenKind.ConstructorId ts with
  | Except.error e => Except.error e
  | Except.ok (nm, ts1) =>
    match parseOptionalFields ts1 with
    | Except.error e => Except.error e
    | Except.ok (fs, ts2) => Except.ok (Constructor.mk nm fs, ts2)

/-- The while loop of _parse_type's sum branch: while the current token
is a pipe, consume it and read another constructor. -/
def parseSumLoop : Nat → List Constructor → List Tok → Except PErr (List Constructor × List Tok)
  | _, _, [] => Except.error PErr.pyNone
  | fuel, acc, t :: ts =>
    if t.kind = TokenKind.Pipe then
      match fuel with
      | 0 => Except.error PErr.fuelOut
      | fuel' + 1 =>
        match parseConstructor ts with
        | Except.error e => Except.error e
        | Except.ok (c, ts1) => parseSumLoop fuel' (acc ++ [c]) ts1
    else Except.ok (acc, t :: ts)

/-- _parse_type: an opening parenthesis means product, anything else
means sum (first constructor, the pipe loop, optional attributes). -/
def parse_type (ts : List Tok) : Except PErr (TyValue × List Tok) :=
  match ts with
  | [] => Except.error PErr.pyNone
  | t :: ts' =>
    if t.kind = TokenKind.LParen then
      match parse_fields (t :: ts') with
      | Except.error e => Except.error e
      | Except.ok (fs, ts1) =>
        match parseOptionalAttributes ts1 with
        | Except.error e => Except.error e
        | Except.ok (ats, ts2) => Except.ok (TyValue.product fs ats, ts2)
    else
      match parseConstructor (t :: ts') with
      | Except.error e => Except.error e
      | Except.ok (c, ts1) =>
        match parseSumLoop (ts1.length + 1) [c] ts1 with
        | Except.error e => Except.error e
        | Except.ok (cs, ts2) =>
          match parseOptionalAttributes ts2 with
          | Except.error e => Except.error e
          | Except.ok (ats, ts3) => Except.ok (TyValue.sum cs ats, ts3)

/-- The while loop of _parse_definitions: while the current token is a
TypeId, read one definition (name, equals sign, type). -/
def parseDefsLoop : Nat → List TypeDef → List Tok → Except PErr (List TypeDef × List Tok)
  | _, _, [] => Except.error PErr.pyNone
  | fuel, acc, t :: ts =>
    if t.kind = TokenKind.TypeId then
      match fuel with
      | 0 => Except.error PErr.fuelOut
      | fuel' + 1 =>
        match pmatch TokenKind.Equals ts with
        | Except.error e => Except.error e
        | Except.ok (_, ts1) =>
          match parse_type ts1 with
          | Except.error e => Except.error e
          | Except.ok (v, ts2) => parseDefsLoop fuel' (acc ++ [TypeDef.mk t.value v]) ts2
    else Except.ok (acc, t :: ts)

/-- _parse_module: the "module" keyword, a name, braces around the
definitions. -/
def parse_module (ts : List Tok) : Except PErr Module :=
  match ts with
  | [] => Except.error PErr.pyNone
  | t :: ts' =>
    if t.kind = TokenKind.TypeId ∧ t.value = "module" then
      match pmatchIds ts' with
      | Except.error e => Except.error e
      | Except.ok (nm, ts1) =>
        match pmatch TokenKind.LBrace ts1 with
        | Except.error e => Except.error e
        | Except.ok (_, ts2) =>
          match parseDefsLoop (ts2.length + 1) [] ts2 with
          | Except.error e => Except.error e
          | Except.ok (defs, ts3) =>
            match pmatch TokenKind.RBrace ts3 with
            | Except.error e => Except.error e
            | Except.ok (_, _) => Except.ok (Module.mk nm defs)
    else Except.error (PErr.expectedModule t.value t.lineno)

/-- The token is a TypeId. -/
def isTy (t : Tok) : Prop := t.kind = TokenKind.TypeId

/-- The token is a ConstructorId. -/
def isCon (t : Tok) : Prop := t.kind = TokenKind.ConstructorId

/-- The token is an Id of the grammar (TypeId or ConstructorId). -/
def isId (t : Tok) : Prop :=
  t.kind = TokenKind.ConstructorId ∨ t.kind = TokenKind.TypeId

/-- The token is the contextual keyword "attributes". -/
def isAttrKw (t : Tok) : Prop :=
  t.kind = TokenKind.TypeId ∧ t.value = "attributes"

/-- Grammar: the optional quantifier of a field, "?" or "*" or nothing,
with the (seq, opt) flags it denotes. -/
inductive QuantG : List Tok → Bool → Bool → Prop
  | none : QuantG [] false false
  | opt (q : Tok) : q.kind = TokenKind.Question → QuantG [q] false true
  | seq (q : Tok) : q.kind = TokenKind.Asterisk → QuantG [q] true false

/-- Grammar: the optional binding name of a field. -/
inductive NameG : List Tok → Option String → Prop
  | none : NameG [] Option.none
  | some (i : Tok) : isId i → NameG [i] (Option.some i.value)

/-- Grammar: field := TypeId [ "?" or "*" ] [ Id ]. -/
inductive FieldG : List Tok → Field → Prop
  | mk (t : Tok) (qs ns : List Tok) (sq op : Bool) (nm : Option String) :
      isTy t → QuantG qs sq op → NameG ns nm →
      FieldG (t :: (qs ++ ns)) (Field.mk t.value nm sq op)

/-- Grammar: the comma-separated nonempty field list between the
parentheses of fields. -/
inductive FieldListG : List Tok → List Field → Prop
  | single (ts : List Tok) (f : Field) : FieldG ts f → FieldListG ts [f]
  | cons (cm : Tok) (ts rest : List Tok) (f : Field) (fs : List Field) :
      FieldG ts f → cm.kind = TokenKind.Comma → FieldListG rest fs →
      FieldListG (ts ++ cm :: rest) (f :: fs)

/-- Grammar: fields := "(" field-list ")". -/
inductive FieldsG : List Tok → List Field → Prop
  | mk (lp rp : Tok) (inner : List Tok) (fs : List Field) :
      lp.kind = TokenKind.LParen → rp.kind = TokenKind.RParen →
      FieldListG inner fs → FieldsG (lp :: (inner ++ [rp])) fs

/-- Grammar: constructor := ConstructorId [ fields ]. -/
inductive ConG : List Tok → Constructor → Prop
  | noFields (c : Tok) : isCon c → ConG [c] (Constructor.mk c.value [])
  | withFields (c : Tok) (ts : List Tok) (fs : List Field) :
      isCon c → FieldsG ts fs → ConG (c :: ts) (Constructor.mk c.value fs)

/-- Grammar: the "| constructor" repetitions after a sum's first
constructor. -/
inductive ConsTailG : List Tok → List Constructor → Prop
  | nil : ConsTailG [] []
  | cons (p : Tok) (ts rest : List Tok) (c : Constructor) (cs : List Constructor) :
      p.kind = TokenKind.Pipe → ConG ts c → ConsTailG rest cs →
      ConsTailG (p :: (ts ++ rest)) (c :: cs)

/-- Grammar: type := product or sum, each with an optional
"attributes" fields clause.  The Bool index records whether the
attributes clause is present in the derivation. -/
inductive TypeG : List Tok → TyValue → Bool → Prop
  | prod (ts : List Tok) (fs : List Field) :
      FieldsG ts fs → TypeG ts (TyValue.product fs []) false
  | prodA (a : Tok) (ts as : List Tok) (fs ats : List Field) :
      FieldsG ts fs → isAttrKw a → FieldsG as ats →
      TypeG (ts ++ a :: as) (TyValue.product fs ats) true
  | sum (ts rest : List Tok) (c : Constructor) (cs : List Constructor) :
      ConG ts c → ConsTailG rest cs →
      TypeG (ts ++ rest) (TyValue.sum (c :: cs) []) false
  | sumA (a : Tok) (ts rest as : List Tok) (c : Constructor) (cs : List Constructor) (ats : List Field) :
      ConG ts c → ConsTailG rest cs → isAttrKw a → FieldsG as ats →
      TypeG (ts ++ (rest ++ a :: as)) (TyValue.sum (c :: cs) ats) true

/-- Grammar, restricted: like DefsG, but a definition whose type has no
attributes clause may not be immediately followed by a definition named
"attributes" (the token the parser would mistake for the contextual
keyword). -/
inductive DefsGR : List Tok → List TypeDef → Prop
  | nil : DefsGR [] []
  | cons (nm eq : Tok) (b : Bool) (ts rest : List Tok) (v : TyValue) (ds : List TypeDef) :
      isTy nm → eq.kind = TokenKind.Equals → TypeG ts v b → DefsGR rest ds →
      (b = false → ∀ u : Tok, rest.head? = some u → ¬ isAttrKw u) →
      DefsGR (nm :: eq :: (ts ++ rest)) (TypeDef.mk nm.value v :: ds)

/-- The restricted module grammar, with DefsGR for the definitions. -/
inductive ModuleGR : List Tok → Module → Prop
  | mk (kw nm lb rb : Tok) (ts : List Tok) (ds : List TypeDef) :
      kw.kind = TokenKind.TypeId → kw.value = "module" → isId nm →
      lb.kind = TokenKind.LBrace → rb.kind = TokenKind.RBrace →
      DefsGR ts ds →
      ModuleGR (kw :: nm :: lb :: (ts ++ [rb])) (Module.mk nm.value ds)

/-- Helper: an alphabetic character is a word character. -/
theorem alpha_wordChar {c : Char} (h : c.isAlpha = true) : wordChar c = true := by
  simp [wordChar, Char.isAlphanum, h]

/-- Helper: an alphabetic character is not whitespace. -/
theorem alpha_not_ws {c : Char} (h : c.isAlpha = true) : c.isWhitespace = false := by
  cases hw : c.isWhitespace
  · rfl
  · exfalso
    simp [Char.isWhitespace] at hw
    rcases hw with ((rfl | rfl) | rfl) | rfl <;> exact absurd h (by decide)

/-- Helper: scanLineF does not depend on its fuel once the fuel covers
the length of the input. -/
theorem scanLineF_congr (f1 : Nat) :
    ∀ (f2 n : Nat) (l : List Char), l.length ≤ f1 → l.length ≤ f2 →
      scanLineF f1 n l = scanLineF f2 n l := by
  induction f1 with
  | zero =>
    intro f2 n l h1 _
    have hl : l = [] := List.length_eq_zero.mp (Nat.le_zero.mp h1)
    subst hl
    cases f2 <;> rfl
  | succ g ih =>
    intro f2 n l h1 h2
    cases l with
    | nil => cases f2 <;> rfl
    | cons c cs =>
      cases f2 with
      | zero => simp at h2
      | succ h =>
        have hcs1 : cs.length ≤ g := Nat.succ_le_succ_iff.mp (by simpa using h1)
        have hcs2 : cs.length ≤ h := Nat.succ_le_succ_iff.mp (by simpa using h2)
        have hdw : (cs.dropWhile wordChar).length ≤ cs.length :=
          (List.dropWhile_sublist wordChar).length_le
        simp only [scanLineF]
        rw [ih h n cs hcs1 hcs2,
            ih h n (cs.dropWhile wordChar) (le_trans hdw hcs1) (le_trans hdw hcs2)]

/-- Helper: the step the tokenizer takes on a line starting with an
alphabetic character — the maximal word is emitted as one identifier
token, classified by the case of its first character, and scanning
resumes after the word. -/
theorem scanLine_word {c : Char} (n : Nat) (cs : List Char) (h : c.isAlpha = true) :
    scanLine n (c :: cs) =
      (scanLine n (cs.dropWhile wordChar)).map
        (fun ts =>
          Tok.mk (if c.isUpper then TokenKind.ConstructorId else TokenKind.TypeId)
            (String.mk (c :: cs.takeWhile wordChar)) n :: ts) := by
  have hdw : (cs.dropWhile wordChar).length ≤ cs.length :=
    (List.dropWhile_sublist wordChar).length_le
  have hre : scanLineF cs.length n (cs.dropWhile wordChar) = scanLine n (cs.dropWhile wordChar) :=
    scanLineF_congr cs.length (cs.dropWhile wordChar).length n (cs.dropWhile wordChar) hdw le_rfl
  show scanLineF (cs.length + 1) n (c :: cs) = _
  rw [show scanLineF (cs.length + 1) n (c :: cs) =
      (if c.isWhitespace then scanLineF cs.length n cs
       else if wordChar c then
        if c.isAlpha then
          if c.isUpper then
            (scanLineF cs.length n (cs.dropWhile wordChar)).map
              (fun ts => Tok.mk TokenKind.ConstructorId (String.mk (c :: cs.takeWhile wordChar)) n :: ts)
          else
            (scanLineF cs.length n (cs.dropWhile wordChar)).map
              (fun ts => Tok.mk TokenKind.TypeId (String.mk (c :: cs.takeWhile wordChar)) n :: ts)
        else
          match operator_table (String.mk (c :: cs.takeWhile wordChar)) with
          | some k =>
            (scanLineF cs.length n (cs.dropWhile wordChar)).map
              (fun ts => Tok.mk k (String.mk (c :: cs.takeWhile wordChar)) n :: ts)
          | none => Except.error (PErr.invalidOperator (String.mk (c :: cs.takeWhile wordChar)) n)
       else if c = '-' ∧ cs.head? = some '-' then Except.ok []
       else
        match operator_table (String.singleton c) with
        | some k => (scanLineF cs.length n cs).map (fun ts => Tok.mk k (String.singleton c) n :: ts)
        | none => Except.error (PErr.invalidOperator (String.singleton c) n)) from rfl]
  rw [alpha_not_ws h, alpha_wordChar h, h, hre]
  by_cases hu : c.isUpper = true <;> simp [hu]

/-- C7: the classification of an alphabetic word emitted by the
tokenizer depends solely on the case of its first character: uppercase
yields a ConstructorId token, otherwise a TypeId token; the token's
value is the whole word and scanning resumes after it. -/
theorem C7_identifier_case :
    ∀ (n : Nat) (c : Char) (cs : List Char), c.isAlpha = true →
      scanLine n (c :: cs) =
        (scanLine n (cs.dropWhile wordChar)).map
          (fun ts =>
            Tok.mk (if c.isUpper then TokenKind.ConstructorId else TokenKind.TypeId)
              (String.mk (c :: cs.takeWhile wordChar)) n :: ts) :=
  fun n c cs h => scanLine_word n cs h

/-- C7 witness: C7_identifier_case applied at a concrete uppercase-led
word, with the hypothesis discharged there. -/
theorem C7_witness :
    ('A' : Char).isAlpha = true ∧
    scanLine 1 ('A' :: ['b']) =
      (scanLine 1 (['b'].dropWhile wordChar)).map
        (fun ts =>
          Tok.mk (if ('A' : Char).isUpper then TokenKind.ConstructorId else TokenKind.TypeId)
            (String.mk ('A' :: ['b'].takeWhile wordChar)) 1 :: ts) :=
  ⟨by decide, C7_identifier_case 1 'A' ['b'] (by decide)⟩

theorem pmatch_ok {t : Tok} {k : TokenKind} (h : t.kind = k) (ts : List Tok) :
    pmatch k (t :: ts) = Except.ok (t.value, ts) := by
  simp [pmatch, h]

theorem pmatchIds_ok {t : Tok} (h : isId t) (ts : List Tok) :
    pmatchIds (t :: ts) = Except.ok (t.value, ts) := by
  rcases h with h' | h' <;> simp [pmatchIds, h']

theorem quantG_parse {qs : List Tok} {sq op : Bool} (h : QuantG qs sq op)
    (u : Tok) (us : List Tok)
    (hu1 : u.kind ≠ TokenKind.Question) (hu2 : u.kind ≠ TokenKind.Asterisk) :
    parseQuant (qs ++ u :: us) = Except.ok ((sq, op), u :: us) := by
  cases h with
  | none => simp [parseQuant, hu1, hu2]
  | opt q hq => simp [parseQuant, hq, hu2]
  | seq q hq => simp [parseQuant, hq]

theorem fieldG_step {ts : List Tok} {f : Field} (h : FieldG ts f)
    (fuel' : Nat) (acc : List Field) (w : Tok) (ws : List Tok)
    (hw : w.kind = TokenKind.RParen ∨ w.kind = TokenKind.Comma) :
    parseFieldsLoop (fuel' + 1) acc (ts ++ w :: ws) =
      (if w.kind = TokenKind.RParen then Except.ok (acc ++ [f], w :: ws)
       else parseFieldsLoop fuel' (acc ++ [f]) ws) := by
  have hwq : w.kind ≠ TokenKind.Question := by rcases hw with h' | h' <;> simp [h']
  have hwa : w.kind ≠ TokenKind.Asterisk := by rcases hw with h' | h' <;> simp [h']
  have hwid : ¬ (w.kind = TokenKind.ConstructorId ∨ w.kind = TokenKind.TypeId) := by
    rcases hw with h' | h' <;> simp [h']
  cases h with
  | mk t qs ns sq op nm hty hq hn =>
    have hty' : t.kind = TokenKind.TypeId := hty
    cases hn with
    | none =>
      have hl : (t :: (qs ++ [])) ++ w :: ws = t :: (qs ++ w :: ws) := by simp
      rw [hl]
      have hq' := quantG_parse hq w ws hwq hwa
      rcases hw with h' | h'
      · simp [parseFieldsLoop, hty', hq', hwid, h']
      · have hnr : w.kind ≠ TokenKind.RParen := by simp [h']
        simp [parseFieldsLoop, hty', hq', hwid, h', hnr]
    | some i hi =>
      have hiq : i.kind ≠ TokenKind.Question := by rcases hi with h' | h' <;> simp [h']
      have hia : i.kind ≠ TokenKind.Asterisk := by rcases hi with h' | h' <;> simp [h']
      have hiid : i.kind = TokenKind.ConstructorId ∨ i.kind = TokenKind.TypeId := hi
      have hl : (t :: (qs ++ [i])) ++ w :: ws = t :: (qs ++ i :: w :: ws) := by simp
      rw [hl]
      have hq' := quantG_parse hq i (w :: ws) hiq hia
      rcases hw with h' | h'
      · simp [parseFieldsLoop, hty', hq', hiid, h']
      · have hnr : w.kind ≠ TokenKind.RParen := by simp [h']
        simp [parseFieldsLoop, hty', hq', hiid, h', hnr]

theorem fieldG_len {ts : List Tok} {f : Field} (h : FieldG ts f) : 1 ≤ ts.length := by
  cases h with
  | mk t qs ns sq op nm hty hq hn => simp

theorem fieldListG_loop {inner : List Tok} {fs : List Field} (h : FieldListG inner fs) :
    ∀ (fuel : Nat) (acc : List Field) (r : Tok) (rest : List Tok),
      inner.length < fuel → r.kind = TokenKind.RParen →
      parseFieldsLoop fuel acc (inner ++ r :: rest) = Except.ok (acc ++ fs, r :: rest) := by
  induction h with
  | single ts f hf =>
    intro fuel acc r rest hlen hr
    obtain ⟨fuel', rfl⟩ : ∃ g, fuel = g + 1 := by
      cases fuel
      · exact absurd hlen (by simp)
      · exact ⟨_, rfl⟩
    rw [fieldG_step hf fuel' acc r rest (Or.inl hr)]
    simp [hr]
  | cons cm ts rest' f fs' hf hcm htail ih =>
    intro fuel acc r rest hlen hr
    obtain ⟨fuel', rfl⟩ : ∃ g, fuel = g + 1 := by
      cases fuel
      · exact absurd hlen (by simp)
      · exact ⟨_, rfl⟩
    have hl : (ts ++ cm :: rest') ++ r :: rest = ts ++ cm :: (rest' ++ r :: rest) := by simp
    rw [hl, fieldG_step hf fuel' acc cm (rest' ++ r :: rest) (Or.inr hcm)]
    have hcmr : cm.kind ≠ TokenKind.RParen := by simp [hcm]
    rw [if_neg hcmr]
    have hlen' : rest'.length < fuel' := by
      have h1 := fieldG_len hf
      simp only [List.length_append, List.length_cons] at hlen
      omega
    rw [ih fuel' (acc ++ [f]) r rest hlen' hr]
    simp

theorem fieldsG_parse {ts : List Tok} {fs : List Field} (h : FieldsG ts fs) (rest : List Tok) :
    parse_fields (ts ++ rest) = Except.ok (fs, rest) := by
  cases h with
  | mk lp rp inner fs hlp hrp hinner =>
    have hl : (lp :: (inner ++ [rp])) ++ rest = lp :: (inner ++ rp :: rest) := by simp
    have hlen : inner.length < (inner ++ rp :: rest).length + 1 := by
      simp only [List.length_append, List.length_cons]
      omega
    rw [hl]
    simp only [parse_fields, pmatch_ok hlp,
      fieldListG_loop hinner ((inner ++ rp :: rest).length + 1) [] rp rest hlen hrp,
      pmatch_ok hrp, List.nil_append]

theorem optFields_skip {x : Tok} (hx : x.kind ≠ TokenKind.LParen) (xs : List Tok) :
    parseOptionalFields (x :: xs) = Except.ok ([], x :: xs) := by
  simp [parseOptionalFields, hx]

theorem fieldsG_head {ts : List Tok} {fs : List Field} (h : FieldsG ts fs) :
    ∃ lp tl, ts = lp :: tl ∧ lp.kind = TokenKind.LParen := by
  cases h with
  | mk lp rp inner fs hlp hrp hinner => exact ⟨lp, inner ++ [rp], rfl, hlp⟩

theorem optFields_fields {ts : List Tok} {fs : List Field} (h : FieldsG ts fs) (rest : List Tok) :
    parseOptionalFields (ts ++ rest) = Except.ok (fs, rest) := by
  have hp := fieldsG_parse h rest
  obtain ⟨lp, tl, rfl, hlp⟩ := fieldsG_head h
  have hl : (lp :: tl) ++ rest = lp :: (tl ++ rest) := by simp
  rw [hl] at hp ⊢
  simp only [parseOptionalFields]
  rw [if_pos hlp]
  exact hp

theorem optAttrs_skip {x : Tok} (hx : ¬ isAttrKw x) (xs : List Tok) :
    parseOptionalAttributes (x :: xs) = Except.ok ([], x :: xs) := by
  simp only [parseOptionalAttributes]
  rw [if_neg (show ¬ (x.kind = TokenKind.TypeId ∧ x.value = "attributes") from hx)]

theorem optAttrs_attrs {a : Tok} (ha : isAttrKw a) {as : List Tok} {ats : List Field}
    (h : FieldsG as ats) (rest : List Tok) :
    parseOptionalAttributes (a :: (as ++ rest)) = Except.ok (ats, rest) := by
  simp only [parseOptionalAttributes]
  rw [if_pos (show a.kind = TokenKind.TypeId ∧ a.value = "attributes" from ha)]
  exact fieldsG_parse h rest

theorem conG_parse {ts : List Tok} {c : Constructor} (h : ConG ts c)
    (y : Tok) (ys : List Tok) (hy : y.kind ≠ TokenKind.LParen) :
    parseConstructor (ts ++ y :: ys) = Except.ok (c, y :: ys) := by
  cases h with
  | noFields ct hct =>
    have hct' : ct.kind = TokenKind.ConstructorId := hct
    simp only [List.singleton_append, parseConstructor, pmatch_ok hct', optFields_skip hy]
  | withFields ct fts fs hct hf =>
    have hct' : ct.kind = TokenKind.ConstructorId := hct
    have hl : (ct :: fts) ++ y :: ys = ct :: (fts ++ y :: ys) := by simp
    rw [hl]
    simp only [parseConstructor, pmatch_ok hct', optFields_fields hf (y :: ys)]

theorem consTailG_head {y : Tok} {ys : List Tok} {cs : List Constructor}
    (h : ConsTailG (y :: ys) cs) : y.kind = TokenKind.Pipe := by
  cases h with
  | cons p ts rest c cs hp hc ht => exact hp

theorem conG_parse_ctx {cts : List Tok} {c : Constructor} (hcon : ConG cts c)
    {rest : List Tok} {cs : List Constructor} (htail : ConsTailG rest cs)
    (x : Tok) (xs : List Tok) (hxl : x.kind ≠ TokenKind.LParen) :
    parseConstructor (cts ++ (rest ++ x :: xs)) = Except.ok (c, rest ++ x :: xs) := by
  cases rest with
  | nil => simpa using conG_parse hcon x xs hxl
  | cons r0 rs =>
    have h0 : r0.kind = TokenKind.Pipe := consTailG_head htail
    have h0' : r0.kind ≠ TokenKind.LParen := by simp [h0]
    simpa using conG_parse hcon r0 (rs ++ x :: xs) h0'

theorem consTailG_loop {ts : List Tok} {cs : List Constructor} (h : ConsTailG ts cs) :
    ∀ (fuel : Nat) (acc : List Constructor) (x : Tok) (xs : List Tok),
      ts.length < fuel → x.kind ≠ TokenKind.Pipe → x.kind ≠ TokenKind.LParen →
      parseSumLoop fuel acc (ts ++ x :: xs) = Except.ok (acc ++ cs, x :: xs) := by
  induction h with
  | nil =>
    intro fuel acc x xs hlen hxp hxl
    cases fuel <;> simp [parseSumLoop, hxp]
  | cons p cts rest c cs' hp hcon htail ih =>
    intro fuel acc x xs hlen hxp hxl
    obtain ⟨fuel', rfl⟩ : ∃ g, fuel = g + 1 := by
      cases fuel
      · exact absurd hlen (by simp)
      · exact ⟨_, rfl⟩
    have hl : (p :: (cts ++ rest)) ++ x :: xs = p :: (cts ++ (rest ++ x :: xs)) := by simp
    rw [hl]
    have hcp := conG_parse_ctx hcon htail x xs hxl
    simp only [parseSumLoop, hp, hcp]
    have hlen' : rest.length < fuel' := by
      simp only [List.length_cons, List.length_append] at hlen
      omega
    rw [ih fuel' (acc ++ [c]) x xs hlen' hxp hxl]
    simp

theorem conG_head {ts : List Tok} {c : Constructor} (h : ConG ts c) :
    ∃ ct tl, ts = ct :: tl ∧ ct.kind = TokenKind.ConstructorId := by
  cases h with
  | noFields ct hct => exact ⟨ct, [], rfl, hct⟩
  | withFields ct fts fs hct hf => exact ⟨ct, fts, rfl, hct⟩

theorem typeG_parse {ts : List Tok} {v : TyValue} {b : Bool} (h : TypeG ts v b)
    (x : Tok) (xs : List Tok)
    (hxp : x.kind ≠ TokenKind.Pipe) (hxl : x.kind ≠ TokenKind.LParen)
    (hxa : b = false → ¬ isAttrKw x) :
    parse_type (ts ++ x :: xs) = Except.ok (v, x :: xs) := by
  cases h with
  | prod fts fs hf =>
    have hfp := fieldsG_parse hf (x :: xs)
    obtain ⟨lp, tl, rfl, hlp⟩ := fieldsG_head hf
    have hl : (lp :: tl) ++ x :: xs = lp :: (tl ++ x :: xs) := by simp
    rw [hl] at hfp ⊢
    simp [parse_type, hlp, hfp, optAttrs_skip (hxa rfl) xs]
  | prodA a fts as fs ats hf ha has =>
    have hfp := fieldsG_parse hf (a :: (as ++ x :: xs))
    have hat := optAttrs_attrs ha has (x :: xs)
    obtain ⟨lp, tl, rfl, hlp⟩ := fieldsG_head hf
    have hl1 : ((lp :: tl) ++ a :: as) ++ x :: xs = lp :: (tl ++ (a :: (as ++ x :: xs))) := by simp
    have hl2 : (lp :: tl) ++ a :: (as ++ x :: xs) = lp :: (tl ++ (a :: (as ++ x :: xs))) := by simp
    rw [hl1]
    rw [hl2] at hfp
    simp [parse_type, hlp, hfp, hat]
  | sum cts rest c cs hcon htail =>
    have hcp := conG_parse_ctx hcon htail x xs hxl
    obtain ⟨ct, tl, rfl, hct⟩ := conG_head hcon
    have hctl : ct.kind ≠ TokenKind.LParen := by simp [hct]
    have hl1 : ((ct :: tl) ++ rest) ++ x :: xs = ct :: (tl ++ (rest ++ x :: xs)) := by simp
    have hl2 : (ct :: tl) ++ (rest ++ x :: xs) = ct :: (tl ++ (rest ++ x :: xs)) := by simp
    rw [hl1]
    rw [hl2] at hcp
    have hloop := consTailG_loop htail ((rest ++ x :: xs).length + 1) [c] x xs
      (by simp only [List.length_append, List.length_cons]; omega) hxp hxl
    simp only [parse_type, if_neg hctl, hcp, hloop, optAttrs_skip (hxa rfl) xs,
      List.singleton_append]
  | sumA a cts rest as c cs ats hcon htail ha has =>
    have hak : a.kind = TokenKind.TypeId := ha.1
    have hal : a.kind ≠ TokenKind.LParen := by simp [hak]
    have hap : a.kind ≠ TokenKind.Pipe := by simp [hak]
    have hcp := conG_parse_ctx hcon htail a (as ++ x :: xs) hal
    have hat := optAttrs_attrs ha has (x :: xs)
    obtain ⟨ct, tl, rfl, hct⟩ := conG_head hcon
    have hctl : ct.kind ≠ TokenKind.LParen := by simp [hct]
    have hl1 : ((ct :: tl) ++ (rest ++ a :: as)) ++ x :: xs =
        ct :: (tl ++ (rest ++ a :: (as ++ x :: xs))) := by simp
    have hl2 : (ct :: tl) ++ (rest ++ a :: (as ++ x :: xs)) =
        ct :: (tl ++ (rest ++ a :: (as ++ x :: xs))) := by simp
    rw [hl1]
    rw [hl2] at hcp
    have hloop := consTailG_loop htail ((rest ++ a :: (as ++ x :: xs)).length + 1) [c]
      a (as ++ x :: xs)
      (by simp only [List.length_append, List.length_cons]; omega) hap hal
    simp only [parse_type, if_neg hctl, hcp, hloop, hat, List.singleton_append]

theorem defsGR_head {y : Tok} {ys : List Tok} {ds : List TypeDef} (h : DefsGR (y :: ys) ds) :
    y.kind = TokenKind.TypeId := by
  cases h with
  | cons nm eq b tts rest v ds hnm heq ht hr hs => exact hnm

theorem defsGR_loop {ts : List Tok} {ds : List TypeDef} (h : DefsGR ts ds) :
    ∀ (fuel : Nat) (acc : List TypeDef) (r : Tok) (tail : List Tok),
      ts.length < fuel → r.kind = TokenKind.RBrace →
      parseDefsLoop fuel acc (ts ++ r :: tail) = Except.ok (acc ++ ds, r :: tail) := by
  induction h with
  | nil =>
    intro fuel acc r tail hlen hr
    have hrt : r.kind ≠ TokenKind.TypeId := by simp [hr]
    cases fuel <;> simp [parseDefsLoop, hrt]
  | cons nm eq b tts rest v ds' hnm heq htype hrest hside ih =>
    intro fuel acc r tail hlen hr
    have hnm' : nm.kind = TokenKind.TypeId := hnm
    obtain ⟨fuel', rfl⟩ : ∃ g, fuel = g + 1 := by
      cases fuel
      · exact absurd hlen (by simp)
      · exact ⟨_, rfl⟩
    have hl : (nm :: eq :: (tts ++ rest)) ++ r :: tail =
        nm :: eq :: (tts ++ (rest ++ r :: tail)) := by simp
    rw [hl]
    have htp : parse_type (tts ++ (rest ++ r :: tail)) = Except.ok (v, rest ++ r :: tail) := by
      cases rest with
      | nil =>
        have hxp : r.kind ≠ TokenKind.Pipe := by simp [hr]
        have hxl : r.kind ≠ TokenKind.LParen := by simp [hr]
        have hxa : b = false → ¬ isAttrKw r := fun _ hk => by
          have := hk.1
          rw [hr] at this
          exact TokenKind.noConfusion this
        simpa using typeG_parse htype r tail hxp hxl hxa
      | cons d0 ds0 =>
        have hd0 : d0.kind = TokenKind.TypeId := defsGR_head hrest
        have hxp : d0.kind ≠ TokenKind.Pipe := by simp [hd0]
        have hxl : d0.kind ≠ TokenKind.LParen := by simp [hd0]
        have hxa : b = false → ¬ isAttrKw d0 := fun hb => hside hb d0 rfl
        simpa using typeG_parse htype d0 (ds0 ++ r :: tail) hxp hxl hxa
    have hlen' : rest.length < fuel' := by
      simp only [List.length_cons, List.length_append] at hlen
      omega
    simp only [parseDefsLoop, hnm', pmatch_ok heq, htp]
    rw [ih fuel' (acc ++ [TypeDef.mk nm.value v]) r tail hlen' hr]
    simp

theorem moduleGR_parse {toks : List Tok} {m : Module} (h : ModuleGR toks m) :
    parse_module toks = Except.ok m := by
  cases h with
  | mk kw nm lb rb ts ds hkw hkwv hnm hlb hrb hdefs =>
    have hloop := defsGR_loop hdefs ((ts ++ [rb]).length + 1) [] rb []
      (by simp only [List.length_append, List.length_cons]; omega) hrb
    simp only [List.append_nil] at hloop
    simp only [parse_module]
    rw [if_pos (show kw.kind = TokenKind.TypeId ∧ kw.value = "module" from ⟨hkw, hkwv⟩)]
    simp only [pmatchIds_ok hnm, pmatch_ok hlb, hloop, pmatch_ok hrb, List.nil_append]

/-- C4: the identifier "attributes" is recognized as a keyword exactly
when the contextual check holds — the first two conjuncts characterize
_parse_optional_attributes, the only place the parser compares a
type-identifier token's value with "attributes", and parse_type invokes
it precisely at the token following a product's fields list or a sum's
constructor list; in every other identifier position of the grammar the
parser is blind to the token's value: the module-name position (third
conjunct, universal over the name token, hence over a module named
"attributes"), the top-level definition-name position once control is at
the definitions loop (fourth conjunct, universal over the name token),
and the field referenced-type and binding-name positions (fifth
conjunct, universal over every grammatical fields list, whose tokens'
values FieldsG leaves unconstrained). -/
theorem C4_attributes_contextual :
    (∀ (x : Tok) (xs : List Tok), isAttrKw x →
        parseOptionalAttributes (x :: xs) = parse_fields xs) ∧
    (∀ (x : Tok) (xs : List Tok), ¬ isAttrKw x →
        parseOptionalAttributes (x :: xs) = Except.ok ([], x :: xs)) ∧
    (∀ (kw nm lb rb : Tok) (ts : List Tok) (ds : List TypeDef),
        kw.kind = TokenKind.TypeId → kw.value = "module" → isId nm →
        lb.kind = TokenKind.LBrace → rb.kind = TokenKind.RBrace → DefsGR ts ds →
        parse_module (kw :: nm :: lb :: (ts ++ [rb])) = Except.ok (Module.mk nm.value ds)) ∧
    (∀ (nm eq r : Tok) (ts tail : List Tok) (v : TyValue) (b : Bool)
        (acc : List TypeDef) (fuel : Nat),
        nm.kind = TokenKind.TypeId → eq.kind = TokenKind.Equals → TypeG ts v b →
        r.kind = TokenKind.RBrace → ts.length + 2 < fuel →
        parseDefsLoop fuel acc ((nm :: eq :: ts) ++ r :: tail) =
          Except.ok (acc ++ [TypeDef.mk nm.value v], r :: tail)) ∧
    (∀ (ts : List Tok) (fs : List Field) (rest : List Tok), FieldsG ts fs →
        parse_fields (ts ++ rest) = Except.ok (fs, rest)) := by
  refine ⟨?_, ?_, ?_, ?_, ?_⟩
  · intro x xs hx
    simp only [parseOptionalAttributes]
    rw [if_pos (show x.kind = TokenKind.TypeId ∧ x.value = "attributes" from hx)]
  · intro x xs hx
    exact optAttrs_skip hx xs
  · intro kw nm lb rb ts ds hkw hkwv hnm hlb hrb hdefs
    exact moduleGR_parse (ModuleGR.mk kw nm lb rb ts ds hkw hkwv hnm hlb hrb hdefs)
  · intro nm eq r ts tail v b acc fuel hnm heq ht hr hlen
    have hd : DefsGR (nm :: eq :: (ts ++ [])) [TypeDef.mk nm.value v] :=
      DefsGR.cons nm eq b ts [] v [] hnm heq ht DefsGR.nil
        (fun _ u hu => Option.noConfusion hu)
    have hres := defsGR_loop hd fuel acc r tail
      (by simp only [List.length_cons, List.length_append, List.length_nil]; omega) hr
    simpa using hres
  · intro ts fs rest h
    exact fieldsG_parse h rest

/-- C4 witness: the parts of C4_attributes_contextual applied at tokens
whose value is the string "attributes" in each position — keyword
position, module name, definition name, field type and field binding
name — with every hypothesis discharged there. -/
theorem C4_witness :
    isAttrKw (Tok.mk TokenKind.TypeId "attributes" 1) ∧
    ¬ isAttrKw (Tok.mk TokenKind.TypeId "t" 1) ∧
    parseOptionalAttributes (Tok.mk TokenKind.TypeId "attributes" 1 ::
        [Tok.mk TokenKind.LParen "(" 1, Tok.mk TokenKind.TypeId "b" 1,
         Tok.mk TokenKind.RParen ")" 1]) =
      parse_fields [Tok.mk TokenKind.LParen "(" 1, Tok.mk TokenKind.TypeId "b" 1,
         Tok.mk TokenKind.RParen ")" 1] ∧
    parseOptionalAttributes (Tok.mk TokenKind.TypeId "t" 1 ::
        [Tok.mk TokenKind.Equals "=" 1]) =
      Except.ok ([], [Tok.mk TokenKind.TypeId "t" 1, Tok.mk TokenKind.Equals "=" 1]) ∧
    parse_module [Tok.mk TokenKind.TypeId "module" 1,
        Tok.mk TokenKind.TypeId "attributes" 1, Tok.mk TokenKind.LBrace "\x7b" 1,
        Tok.mk TokenKind.RBrace "\x7d" 1] =
      Except.ok (Module.mk "attributes" []) ∧
    parseDefsLoop 4 [] [Tok.mk TokenKind.TypeId "attributes" 1,
        Tok.mk TokenKind.Equals "=" 1, Tok.mk TokenKind.ConstructorId "X" 1,
        Tok.mk TokenKind.RBrace "\x7d" 1] =
      Except.ok ([TypeDef.mk "attributes" (TyValue.sum [Constructor.mk "X" []] [])],
        [Tok.mk TokenKind.RBrace "\x7d" 1]) ∧
    parse_fields [Tok.mk TokenKind.LParen "(" 1,
        Tok.mk TokenKind.TypeId "attributes" 1, Tok.mk TokenKind.TypeId "attributes" 1,
        Tok.mk TokenKind.RParen ")" 1] =
      Except.ok ([Field.mk "attributes" (some "attributes") false false], []) := by
  have hnk : ¬ isAttrKw (Tok.mk TokenKind.TypeId "t" 1) := fun hk => absurd hk.2 (by decide)
  have htype : TypeG [Tok.mk TokenKind.ConstructorId "X" 1]
      (TyValue.sum [Constructor.mk "X" []] []) false :=
    TypeG.sum [Tok.mk TokenKind.ConstructorId "X" 1] [] (Constructor.mk "X" []) []
      (ConG.noFields (Tok.mk TokenKind.ConstructorId "X" 1) rfl) ConsTailG.nil
  have hfg : FieldsG
      [Tok.mk TokenKind.LParen "(" 1, Tok.mk TokenKind.TypeId "attributes" 1,
       Tok.mk TokenKind.TypeId "attributes" 1, Tok.mk TokenKind.RParen ")" 1]
      [Field.mk "attributes" (some "attributes") false false] :=
    FieldsG.mk (Tok.mk TokenKind.LParen "(" 1) (Tok.mk TokenKind.RParen ")" 1)
      [Tok.mk TokenKind.TypeId "attributes" 1, Tok.mk TokenKind.TypeId "attributes" 1]
      [Field.mk "attributes" (some "attributes") false false] rfl rfl
      (FieldListG.single _ _
        (FieldG.mk (Tok.mk TokenKind.TypeId "attributes" 1) []
          [Tok.mk TokenKind.TypeId "attributes" 1] false false (some "attributes") rfl
          QuantG.none
          (NameG.some (Tok.mk TokenKind.TypeId "attributes" 1) (Or.inr rfl))))
  refine ⟨⟨rfl, rfl⟩, hnk,
    C4_attributes_contextual.1 (Tok.mk TokenKind.TypeId "attributes" 1) _ ⟨rfl, rfl⟩,
    C4_attributes_contextual.2.1 (Tok.mk TokenKind.TypeId "t" 1) _ hnk,
    C4_attributes_contextual.2.2.1 (Tok.mk TokenKind.TypeId "module" 1)
      (Tok.mk TokenKind.TypeId "attributes" 1) (Tok.mk TokenKind.LBrace "\x7b" 1)
      (Tok.mk TokenKind.RBrace "\x7d" 1) [] [] rfl rfl (Or.inr rfl) rfl rfl DefsGR.nil,
    ?_, ?_⟩
  · exact C4_attributes_contextual.2.2.2.1 (Tok.mk TokenKind.TypeId "attributes" 1)
      (Tok.mk TokenKind.Equals "=" 1) (Tok.mk TokenKind.RBrace "\x7d" 1)
      [Tok.mk TokenKind.ConstructorId "X" 1] [] (TyValue.sum [Constructor.mk "X" []] [])
      false [] 4 rfl rfl htype rfl (by decide)
  · exact C4_attributes_contextual.2.2.2.2
      [Tok.mk TokenKind.LParen "(" 1, Tok.mk TokenKind.TypeId "attributes" 1,
       Tok.mk TokenKind.TypeId "attributes" 1, Tok.mk TokenKind.RParen ")" 1]
      [Field.mk "attributes" (some "attributes") false false] [] hfg

end ASDL
